import Mathlib

/-!
Verification of the raster-to-vector conversion pipeline of the `convert`
repository, as implemented in `src/services/imageProcessing.ts` and
`src/services/geminiService.ts`.

The TypeScript source is shallowly embedded:

* Pixel buffers (`Uint8ClampedArray`) become `List ℕ` of byte values; reads
  `data[i]` become `List.getD data i 0` (in every reachable call the index is
  in range, so the default is never observed).
* All arithmetic in the pipeline is exact in IEEE doubles (channel values are
  bytes, channel sums stay far below 2^53, and `Math.floor(a/b)` on such
  integers equals natural division), so machine numbers are embedded as
  `ℕ` / `ℤ` / `ℚ` with ordinary arithmetic.
* The source compares colors with `colorDistance = Math.sqrt(Δr² + Δg² + Δb²)`.
  On the integers that occur here (sums of three squares of byte differences,
  at most 3·255²) the correctly rounded square root is strictly monotone and
  injective, so every comparison `colorDistance p c < colorDistance p c'`
  in the source is equivalent to comparing the squared distances.  The
  embedding therefore works with the squared distance `colorDistSq`.
* The `pathData`/`svgContent` strings are built exclusively by appending whole
  drawing commands resp. whole markup elements; they are embedded as lists of
  commands (`PathCmd`) resp. a structured document (`SvgDoc`), with string
  emptiness `d.length > 0` corresponding to list non-emptiness.
* The `while (steps < maxSteps)` boundary walk is embedded as a recursion on
  the remaining step budget `maxSteps - steps`, which the source decrements
  exactly once per completed loop iteration.
-/

/-- Source `interface Rgb { r; g; b }` (`imageProcessing.ts` line 27). -/
structure Rgb where
  r : ℕ
  g : ℕ
  b : ℕ
deriving DecidableEq, Repr

/-- Default color used for out-of-range list reads (never observed on the
reachable inputs). -/
def rgbZero : Rgb := ⟨0, 0, 0⟩

/-- Source `getPixelColor` (lines 29-33): reads the three channel bytes at
offset `i` of the pixel buffer. -/
def getPixelColor (data : List ℕ) (i : ℕ) : Rgb :=
  ⟨data.getD i 0, data.getD (i + 1) 0, data.getD (i + 2) 0⟩

/-- Squared Euclidean RGB distance.  The source's `colorDistance`
(lines 35-41) is `Math.sqrt` of this value; since the square root is strictly
monotone, all comparisons in the source are equivalent to comparisons of this
quantity. -/
def colorDistSq (c₁ c₂ : Rgb) : ℤ :=
  ((c₁.r : ℤ) - c₂.r) ^ 2 + ((c₁.g : ℤ) - c₂.g) ^ 2 + ((c₁.b : ℤ) - c₂.b) ^ 2

/-- The nearest-centroid scan shared by `extractPalette` (lines 63-72) and the
classification loop of `processImageClientSide` (lines 299-304):
`minDist = Infinity; closest = 0;` then for each index `j` in order,
`if (dist < minDist) { minDist = dist; closest = j }`.  `⊤ : WithTop ℤ`
models `Infinity`; `j` is the absolute index of the list head. -/
def closestAux (p : Rgb) : List Rgb → ℕ → ℕ → WithTop ℤ → ℕ × WithTop ℤ
  | [], _, best, m => (best, m)
  | c :: rest, j, best, m =>
    if (colorDistSq p c : WithTop ℤ) < m then
      closestAux p rest (j + 1) j (colorDistSq p c)
    else
      closestAux p rest (j + 1) best m

/-- Index of the first palette entry at minimal distance from `p` (the
source's `closestIndex` / `closest` after the scan loop). -/
def closestIdx (p : Rgb) (cs : List Rgb) : ℕ :=
  (closestAux p cs 0 0 ⊤).1

/-- Accumulator cell of the `sums` array in `extractPalette` (line 58). -/
structure SumAcc where
  r : ℕ
  g : ℕ
  b : ℕ
  count : ℕ
deriving DecidableEq, Repr

/-- Zero accumulator, the `{ r: 0, g: 0, b: 0, count: 0 }` initializer. -/
def sumZero : SumAcc := ⟨0, 0, 0, 0⟩

/-- One assignment step `sums[closestIndex].r += p.r; ...; count++`
(lines 74-77). -/
def addPixel (s : SumAcc) (p : Rgb) : SumAcc :=
  ⟨s.r + p.r, s.g + p.g, s.b + p.b, s.count + 1⟩

/-- The sampled pixels of one clustering iteration: the source loop
`for (let i = 0; i < data.length; i += 16)` (line 61) visits byte offsets
`0, 16, 32, ...` below `data.length`, i.e. every 4th pixel. -/
def sampledPixels (data : List ℕ) : List Rgb :=
  (List.range ((data.length + 15) / 16)).map fun j => getPixelColor data (16 * j)

/-- Assignment phase of one `extractPalette` iteration (lines 58-78): fold the
sampled pixels into per-centroid channel sums and counts. -/
def computeSums (cs : List Rgb) (ps : List Rgb) : List SumAcc :=
  ps.foldl
    (fun sums p =>
      let j := closestIdx p cs
      sums.set j (addPixel (sums.getD j sumZero) p))
    (cs.map fun _ => sumZero)

/-- Update phase of one `extractPalette` iteration (lines 81-89): a centroid
with a nonzero count becomes the floored channel-wise mean, any other centroid
is left unchanged. -/
def updateCentroids (cs : List Rgb) (sums : List SumAcc) : List Rgb :=
  List.zipWith
    (fun c s => if 0 < s.count then ⟨s.r / s.count, s.g / s.count, s.b / s.count⟩ else c)
    cs sums

/-- One full clustering iteration of `extractPalette` (lines 57-90). -/
def kmeansIter (data : List ℕ) (cs : List Rgb) : List Rgb :=
  updateCentroids cs (computeSums cs (sampledPixels data))

/-- Source `extractPalette` (lines 48-92): centroids are seeded from the
pixels at indices `i * Math.floor(pixelCount / k)` and refined for a fixed 5
iterations. -/
def extractPalette (data : List ℕ) (pixelCount k : ℕ) : List Rgb :=
  (kmeansIter data)^[5] ((List.range k).map fun i => getPixelColor data (i * (pixelCount / k) * 4))

/-- The pixel-classification loop of `processImageClientSide` (lines 296-306):
`colorIndices[i / 4]` is the nearest palette index of the pixel at byte offset
`i`; the loop runs over `i = 0, 4, ..., data.length - 4` and
`data.length = 4 * pixelCount` for canvas image data, so pixel `j` reads byte
offset `4 * j`. -/
def colorIndices (data : List ℕ) (pixelCount : ℕ) (palette : List Rgb) : List ℕ :=
  (List.range pixelCount).map fun j => closestIdx (getPixelColor data (4 * j)) palette

/-- Source `rgbToHex` (lines 43-45): `(1 << 24) + (r << 16) + (g << 8) + b`
rendered in base 16 with the leading `1` dropped. -/
def rgbToHex (c : Rgb) : String :=
  "#" ++ String.mk ((Nat.toDigits 16 ((1 <<< 24) + (c.r <<< 16) + (c.g <<< 8) + c.b)).drop 1)

/-- One drawing command of the `pathData` string: the source appends only
`M x y `, `Q cx cy x y ` and `Z ` fragments (lines 223, 236, 239), so the
string is embedded as the list of appended commands. -/
inductive PathCmd where
  | move (x y : ℚ)
  | quad (cx cy x y : ℚ)
  | close
deriving DecidableEq, Repr

/-- Recognizer for move-to commands. -/
def PathCmd.isMove : PathCmd → Bool
  | .move _ _ => true
  | _ => false

/-- Recognizer for quadratic-curve commands. -/
def PathCmd.isQuad : PathCmd → Bool
  | .quad _ _ _ _ => true
  | _ => false

/-- Recognizer for close-path commands. -/
def PathCmd.isClose : PathCmd → Bool
  | .close => true
  | _ => false

/-- Default point for out-of-range reads of the traced point list. -/
def pz : ℚ × ℚ := (0, 0)

/-- Midpoint of two points, `((a.x + b.x) / 2, (a.y + b.y) / 2)`. -/
def midPt (a b : ℚ × ℚ) : ℚ × ℚ :=
  ((a.1 + b.1) / 2, (a.2 + b.2) / 2)

/-- The quadratic corner-cutting smoother of `traceLayer` (lines 213-240):
for more than two points, start at the midpoint of the last and first corner,
emit one quadratic curve per corner (corner as control point, midpoint to the
next corner as endpoint), and close; otherwise emit nothing. -/
def smoothPath (ps : List (ℚ × ℚ)) : List PathCmd :=
  if 2 < ps.length then
    let lastP := ps.getD (ps.length - 1) pz
    let firstP := ps.getD 0 pz
    let s := midPt lastP firstP
    PathCmd.move s.1 s.2 ::
      ((List.range ps.length).map fun i =>
        let c := ps.getD i pz
        let n := ps.getD ((i + 1) % ps.length) pz
        let m := midPt c n
        PathCmd.quad c.1 c.2 m.1 m.2)
      ++ [PathCmd.close]
  else []

/-- Source `LINE_LOOKUP` (lines 98-115): for each marching-squares case, the
list of `(entry edge, exit edge)` segments, edges `0`=top, `1`=right,
`2`=bottom, `3`=left. -/
def LINE_LOOKUP : List (List (ℕ × ℕ)) :=
  [ []
  , [(3, 2)]
  , [(2, 1)]
  , [(3, 1)]
  , [(1, 0)]
  , [(0, 3), (1, 2)]
  , [(2, 0)]
  , [(3, 0)]
  , [(0, 3)]
  , [(0, 2)]
  , [(0, 1), (3, 2)]
  , [(0, 1)]
  , [(1, 3)]
  , [(1, 2)]
  , [(2, 3)]
  , [] ]

/-- Source `getEdgePos` (lines 128-136): midpoint of the given edge of the
cell at `(x, y)`. -/
def getEdgePos (x y : ℤ) (edge : ℕ) : ℚ × ℚ :=
  match edge with
  | 0 => ((x : ℚ) + 1/2, (y : ℚ))
  | 1 => ((x : ℚ) + 1, (y : ℚ) + 1/2)
  | 2 => ((x : ℚ) + 1/2, (y : ℚ) + 1)
  | 3 => ((x : ℚ), (y : ℚ) + 1/2)
  | _ => ((x : ℚ), (y : ℚ))

/-- The cell move of the walk (lines 178-181): exit through edge `ne`. -/
def nextCell (cx cy : ℤ) (ne : ℕ) : ℤ × ℤ :=
  match ne with
  | 0 => (cx, cy - 1)
  | 1 => (cx + 1, cy)
  | 2 => (cx, cy + 1)
  | 3 => (cx - 1, cy)
  | _ => (cx, cy)

/-- Marching-squares case index of the cell at `(x, y)` (lines 147-151 and
186-190): bit 1 = bottom-left, bit 2 = bottom-right, bit 4 = top-right,
bit 8 = top-left.  The bits are distinct, so bitwise or is addition. -/
def squareIdx (f : ℤ → ℤ → Bool) (x y : ℤ) : ℕ :=
  (if f x (y + 1) then 1 else 0) + (if f (x + 1) (y + 1) then 2 else 0) +
    (if f (x + 1) y then 4 else 0) + (if f x y then 8 else 0)

/-- One iteration of the walk loop body of `traceLayer` (lines 173-211):
mark the current cell visited, record the exit-edge midpoint, move through the
exit edge, and either stop (`.inl`: out of the cell grid, case 0 or 15, no
segment matching the arrival edge, or returned to the start cell and entry
edge) or continue into the new cell (`.inr`). -/
def walkStep (f : ℤ → ℤ → Bool) (W H : ℕ) (sx sy : ℤ) (e0 : ℕ)
    (vis : Finset (ℤ × ℤ)) (pts : List (ℚ × ℚ)) (cx cy : ℤ) (ne : ℕ) :
    (Finset (ℤ × ℤ) × List (ℚ × ℚ)) ⊕ (Finset (ℤ × ℤ) × List (ℚ × ℚ) × ℤ × ℤ × ℕ) :=
  let vis' := insert (cx, cy) vis
  let pts' := pts ++ [getEdgePos cx cy ne]
  let nc := nextCell cx cy ne
  if nc.1 < 0 ∨ (W : ℤ) - 1 ≤ nc.1 ∨ nc.2 < 0 ∨ (H : ℤ) - 1 ≤ nc.2 then
    .inl (vis', pts')
  else
    let nIdx := squareIdx f nc.1 nc.2
    if nIdx = 0 ∨ nIdx = 15 then
      .inl (vis', pts')
    else
      match (LINE_LOOKUP.getD nIdx []).find? (fun s => s.1 == (ne + 2) % 4) with
      | none => .inl (vis', pts')
      | some seg =>
        if nc.1 = sx ∧ nc.2 = sy ∧ seg.1 = e0 then
          .inl (vis', pts')
        else
          .inr (vis', pts', nc.1, nc.2, seg.2)

/-- The walk loop `while (steps < maxSteps)` of `traceLayer` (lines 173-211),
as a recursion on the remaining step budget.  Returns the visited set, the
gathered point list, and the number of loop-body iterations executed. -/
def walk (f : ℤ → ℤ → Bool) (W H : ℕ) (sx sy : ℤ) (e0 : ℕ) :
    ℕ → Finset (ℤ × ℤ) → List (ℚ × ℚ) → ℤ → ℤ → ℕ →
    Finset (ℤ × ℤ) × List (ℚ × ℚ) × ℕ
  | 0, vis, pts, _, _, _ => (vis, pts, 0)
  | fuel + 1, vis, pts, cx, cy, ne =>
    match walkStep f W H sx sy e0 vis pts cx cy ne with
    | .inl (v, p) => (v, p, 1)
    | .inr (v, p, nx, ny, ne') =>
      let r := walk f W H sx sy e0 fuel v p nx ny ne'
      (r.1, r.2.1, r.2.2 + 1)

/-- The body of the cell scan of `traceLayer` (lines 139-242) for one cell:
skip visited cells and cells of case 0 or 15; otherwise seed a walk at the
first lookup segment with budget `width * height` and append the smoothed
contour to the path data. -/
def traceCell (W H : ℕ) (f : ℤ → ℤ → Bool)
    (acc : Finset (ℤ × ℤ) × List PathCmd) (cell : ℤ × ℤ) :
    Finset (ℤ × ℤ) × List PathCmd :=
  if cell ∈ acc.1 then acc
  else
    let idx := squareIdx f cell.1 cell.2
    if idx = 0 ∨ idx = 15 then acc
    else
      match LINE_LOOKUP.getD idx [] with
      | [] => acc
      | seg0 :: _ =>
        let r := walk f W H cell.1 cell.2 seg0.1 (W * H)
          acc.1 [getEdgePos cell.1 cell.2 seg0.1] cell.1 cell.2 seg0.2
        (r.1, acc.2 ++ smoothPath r.2.1)

/-- The scan order of `traceLayer`: cells `(x, y)` with `y < height - 1` outer
and `x < width - 1` inner (lines 139-140), row-major. -/
def cellList (W H : ℕ) : List (ℤ × ℤ) :=
  (List.range (H - 1)).flatMap fun y =>
    (List.range (W - 1)).map fun x : ℕ => (((x : ℕ) : ℤ), ((y : ℕ) : ℤ))

/-- Source `traceLayer` (lines 119-245): scan all grid cells, tracing and
smoothing a contour from every unvisited boundary cell, and return the
concatenated path data. -/
def traceLayer (W H : ℕ) (f : ℤ → ℤ → Bool) : List PathCmd :=
  ((cellList W H).foldl (traceCell W H f) (∅, [])).2

/-- The `isColor` closure of `processImageClientSide` (lines 319-322): out of
bounds is not the color, otherwise compare the stored label at
`y * width + x` with `c`. -/
def isColor (labels : List ℕ) (W H c : ℕ) (x y : ℤ) : Bool :=
  if x < 0 ∨ y < 0 ∨ (W : ℤ) ≤ x ∨ (H : ℤ) ≤ y then false
  else labels.getD (y * (W : ℤ) + x).toNat 0 == c

/-- The vector document assembled by `processImageClientSide` (lines 308-331):
the `<svg>` root attributes, the single background `<rect>`, and the `<path>`
elements in the order they are appended.  Each path entry keeps the palette
index it was generated from, its fill, and its path data. -/
structure SvgDoc where
  xmlns : String
  viewBox : String
  bgFill : String
  paths : List (ℕ × String × List PathCmd)
deriving DecidableEq, Repr

/-- The vector branch of `processImageClientSide` (lines 288-331) for a
decoded pixel buffer of dimensions `W × H` and color count `k`: extract the
palette, classify every pixel, and emit the background plus one filled path
per palette color in index order, skipping colors whose traced path data is
empty (`d.length > 0` guard, line 325). -/
def vectorize (data : List ℕ) (W H k : ℕ) : SvgDoc :=
  let palette := extractPalette data (W * H) k
  let labels := colorIndices data (W * H) palette
  { xmlns := "http://www.w3.org/2000/svg"
  , viewBox := "0 0 " ++ toString W ++ " " ++ toString H
  , bgFill := rgbToHex (palette.getD 0 rgbZero)
  , paths := (List.range palette.length).filterMap fun c =>
      let d := traceLayer W H (isColor labels W H c)
      if d = [] then none else some (c, rgbToHex (palette.getD c rgbZero), d) }

/-- Result record of `analyzeImage` (`geminiService.ts` lines 3-6). -/
structure AiAnalysis where
  description : String
  tags : List String
deriving DecidableEq, Repr

/-- Outcome of the external `generateContent` call in `analyzeImage`:
either the call throws (network/service error), or it returns a response
whose `text` field is absent (`none`) or present. -/
inductive ServiceResponse where
  | failure
  | success (text : Option String)
deriving DecidableEq, Repr

/-- Source `analyzeImage` (`geminiService.ts` lines 3-57).  The environment is
made explicit: `key` is `process.env.API_KEY` (`none` = unset, and the empty
string is falsy like unset), `resp` the outcome of the awaited service call,
and `parse` models `JSON.parse` (`none` = parse throws).  The entire body is
wrapped in `try/catch`, so the embedding is a total function: the `catch`
branch (and the `throw` on a missing response text) yields the fixed
`"Analysis failed"` record, a missing key the fixed missing-key record. -/
def analyzeImage (key : Option String) (resp : ServiceResponse)
    (parse : String → Option AiAnalysis) : AiAnalysis :=
  if key = none ∨ key = some "" then
    ⟨"AI Analysis unavailable (Missing Key)", []⟩
  else
    match resp with
    | .failure => ⟨"Analysis failed", []⟩
    | .success none => ⟨"Analysis failed", []⟩
    | .success (some t) =>
      if t = "" then ⟨"Analysis failed", []⟩
      else
        match parse t with
        | none => ⟨"Analysis failed", []⟩
        | some a => a

/-- The failure modes of the external annotation step: missing or empty API
key, a throwing service call, a missing or empty response text, or an
unparseable response body. -/
def serviceCallFails (key : Option String) (resp : ServiceResponse)
    (parse : String → Option AiAnalysis) : Prop :=
  key = none ∨ key = some "" ∨ resp = .failure ∨ resp = .success none ∨
    resp = .success (some "") ∨ ∃ t, resp = .success (some t) ∧ parse t = none

/-- A 4 × 4 test image: two rows of black pixels above two rows of white
pixels, in RGBA byte layout. -/
def sampleImage : List ℕ :=
  List.flatten (List.replicate 8 [0, 0, 0, 255]) ++
    List.flatten (List.replicate 8 [255, 255, 255, 255])

/-- The fold of `computeSums` only ever replaces elements, so it preserves the
length of the accumulator array. -/
theorem foldl_set_length (cs : List Rgb) :
    ∀ (ps : List Rgb) (sums : List SumAcc),
      (ps.foldl
        (fun sums p =>
          let j := closestIdx p cs
          sums.set j (addPixel (sums.getD j sumZero) p)) sums).length = sums.length
  | [], _ => rfl
  | p :: ps, sums => by
    rw [List.foldl_cons, foldl_set_length cs ps]
    simp

/-- `computeSums` produces one accumulator per centroid. -/
theorem computeSums_length (cs ps : List Rgb) :
    (computeSums cs ps).length = cs.length := by
  unfold computeSums
  rw [foldl_set_length]
  simp

/-- One clustering iteration preserves the number of centroids. -/
theorem kmeansIter_length (data : List ℕ) (cs : List Rgb) :
    (kmeansIter data cs).length = cs.length := by
  unfold kmeansIter updateCentroids
  rw [List.length_zipWith, computeSums_length, min_self]

/-- `extractPalette` always returns exactly `k` centroids. -/
theorem extractPalette_length (data : List ℕ) (pixelCount k : ℕ) :
    (extractPalette data pixelCount k).length = k := by
  unfold extractPalette
  have h : ∀ (m : ℕ) (cs : List Rgb), ((kmeansIter data)^[m] cs).length = cs.length := by
    intro m
    induction m with
    | zero => intro cs; rfl
    | succ m ih => intro cs; rw [Function.iterate_succ_apply, ih, kmeansIter_length]
  rw [h]
  simp

/-- Claim C1: for every pixel buffer and every target palette size `k` in
`[2, 64]`, `extractPalette` returns a palette of exactly `k` colors, and two
runs on identical pixel data, pixel count, and `k` return identical palettes
(the embedding is a pure function of its three arguments: centroids are
seeded at evenly spaced indices `i * (pixelCount / k)` and refined for a fixed
5 iterations over every 4th pixel, with no randomness). -/
theorem extractPalette_size_deterministic (data : List ℕ) (pixelCount k : ℕ)
    (h2 : 2 ≤ k) (h64 : k ≤ 64) :
    (extractPalette data pixelCount k).length = k ∧
      extractPalette data pixelCount k = extractPalette data pixelCount k :=
  ⟨extractPalette_length data pixelCount k, rfl⟩

/-- Witness for claim C1 at a concrete 4 × 4 image and `k = 2`. -/
theorem extractPalette_size_deterministic_witness :
    (extractPalette sampleImage 16 2).length = 2 ∧
      extractPalette sampleImage 16 2 = extractPalette sampleImage 16 2 :=
  extractPalette_size_deterministic sampleImage 16 2 (by decide) (by decide)

/-- Reading a `zipWith` at an in-range index applies the function to the two
reads. -/
theorem getD_zipWith {α β γ : Type} (f : α → β → γ) :
    ∀ (l₁ : List α) (l₂ : List β) (j : ℕ) (d₁ : α) (d₂ : β) (d₃ : γ),
      j < l₁.length → j < l₂.length →
      (List.zipWith f l₁ l₂).getD j d₃ = f (l₁.getD j d₁) (l₂.getD j d₂)
  | [], _, j, _, _, _, h, _ => absurd h (by simp)
  | _ :: _, [], j, _, _, _, _, h => absurd h (by simp)
  | a :: l₁, b :: l₂, 0, d₁, d₂, d₃, _, _ => rfl
  | a :: l₁, b :: l₂, j + 1, d₁, d₂, d₃, h₁, h₂ => by
    simpa using getD_zipWith f l₁ l₂ j d₁ d₂ d₃ (by simpa using h₁) (by simpa using h₂)

/-- Claim C8: within a clustering iteration, a centroid with assignment count
zero keeps exactly its previous value, and a centroid with nonzero count is
updated to the floored channel-wise mean of its assigned pixels; no other
change is made to any centroid. -/
theorem kmeansIter_empty_cluster_frame (data : List ℕ) (cs : List Rgb) (j : ℕ)
    (hj : j < cs.length) :
    (((computeSums cs (sampledPixels data)).getD j sumZero).count = 0 →
      (kmeansIter data cs).getD j rgbZero = cs.getD j rgbZero) ∧
    (0 < ((computeSums cs (sampledPixels data)).getD j sumZero).count →
      (kmeansIter data cs).getD j rgbZero =
        ⟨((computeSums cs (sampledPixels data)).getD j sumZero).r /
            ((computeSums cs (sampledPixels data)).getD j sumZero).count,
          ((computeSums cs (sampledPixels data)).getD j sumZero).g /
            ((computeSums cs (sampledPixels data)).getD j sumZero).count,
          ((computeSums cs (sampledPixels data)).getD j sumZero).b /
            ((computeSums cs (sampledPixels data)).getD j sumZero).count⟩) := by
  have hlen : j < (computeSums cs (sampledPixels data)).length := by
    rw [computeSums_length]
    exact hj
  constructor
  · intro h0
    unfold kmeansIter updateCentroids
    rw [getD_zipWith _ cs _ j rgbZero sumZero rgbZero hj hlen]
    rw [if_neg]
    omega
  · intro hpos
    unfold kmeansIter updateCentroids
    rw [getD_zipWith _ cs _ j rgbZero sumZero rgbZero hj hlen]
    rw [if_pos hpos]

/-- Witness for claim C8: with no pixel data there are no samples, every
count is zero, and the single centroid survives the iteration unchanged. -/
theorem kmeansIter_empty_cluster_frame_witness :
    (kmeansIter [] [⟨1, 2, 3⟩]).getD 0 rgbZero = ([⟨1, 2, 3⟩] : List Rgb).getD 0 rgbZero :=
  (kmeansIter_empty_cluster_frame [] [⟨1, 2, 3⟩] 0 (by decide)).1 (by decide)

/-- Invariant of the nearest-centroid scan: either no element beats the
incoming best distance and the accumulator survives unchanged, or the scan
returns the first element attaining the minimum distance of the scanned list,
which also strictly beats the incoming best distance. -/
theorem closestAux_spec (p : Rgb) :
    ∀ (l : List Rgb) (j0 best : ℕ) (m : WithTop ℤ),
      (closestAux p l j0 best m = (best, m) ∧
        ∀ i, i < l.length → m ≤ (colorDistSq p (l.getD i rgbZero) : WithTop ℤ)) ∨
      (∃ i, i < l.length ∧
        closestAux p l j0 best m = (j0 + i, (colorDistSq p (l.getD i rgbZero) : WithTop ℤ)) ∧
        (colorDistSq p (l.getD i rgbZero) : WithTop ℤ) < m ∧
        (∀ i', i' < l.length →
          (colorDistSq p (l.getD i rgbZero) : WithTop ℤ) ≤
            (colorDistSq p (l.getD i' rgbZero) : WithTop ℤ)) ∧
        (∀ i', i' < i →
          (colorDistSq p (l.getD i rgbZero) : WithTop ℤ) <
            (colorDistSq p (l.getD i' rgbZero) : WithTop ℤ))) := by
  intro l
  induction l with
  | nil =>
    intro j0 best m
    left
    refine ⟨rfl, ?_⟩
    intro i hi
    simp at hi
  | cons c rest ih =>
    intro j0 best m
    simp only [closestAux]
    by_cases hc : (colorDistSq p c : WithTop ℤ) < m
    · rw [if_pos hc]
      rcases ih (j0 + 1) j0 (colorDistSq p c) with ⟨heq, hall⟩ | ⟨i, hi, heq, hlt, hmin, hstrict⟩
      · right
        refine ⟨0, by simp, ?_, by simpa using hc, ?_, ?_⟩
        · simpa using heq
        · intro i' hi'
          cases i' with
          | zero => simp
          | succ i'' =>
            simp only [List.getD_cons_succ, List.getD_cons_zero]
            exact hall i'' (by simpa using hi')
        · intro i' hi'
          omega
      · right
        refine ⟨i + 1, by simpa using hi, ?_, ?_, ?_, ?_⟩
        · rw [heq]
          simp only [List.getD_cons_succ, Prod.mk.injEq]
          exact ⟨by omega, trivial⟩
        · simp only [List.getD_cons_succ]
          exact lt_trans hlt hc
        · intro i' hi'
          cases i' with
          | zero =>
            simp only [List.getD_cons_succ, List.getD_cons_zero]
            exact le_of_lt hlt
          | succ i'' =>
            simp only [List.getD_cons_succ]
            exact hmin i'' (by simpa using hi')
        · intro i' hi'
          cases i' with
          | zero =>
            simp only [List.getD_cons_succ, List.getD_cons_zero]
            exact hlt
          | succ i'' =>
            simp only [List.getD_cons_succ]
            exact hstrict i'' (by omega)
    · rw [if_neg hc]
      have hm : m ≤ (colorDistSq p c : WithTop ℤ) := not_lt.mp hc
      rcases ih (j0 + 1) best m with ⟨heq, hall⟩ | ⟨i, hi, heq, hlt, hmin, hstrict⟩
      · left
        refine ⟨heq, ?_⟩
        intro i' hi'
        cases i' with
        | zero => simpa using hm
        | succ i'' =>
          simp only [List.getD_cons_succ]
          exact hall i'' (by simpa using hi')
      · right
        refine ⟨i + 1, by simpa using hi, ?_, ?_, ?_, ?_⟩
        · rw [heq]
          simp only [List.getD_cons_succ, Prod.mk.injEq]
          exact ⟨by omega, trivial⟩
        · simp only [List.getD_cons_succ]
          exact hlt
        · intro i' hi'
          cases i' with
          | zero =>
            simp only [List.getD_cons_succ, List.getD_cons_zero]
            exact le_of_lt (lt_of_lt_of_le hlt hm)
          | succ i'' =>
            simp only [List.getD_cons_succ]
            exact hmin i'' (by simpa using hi')
        · intro i' hi'
          cases i' with
          | zero =>
            simp only [List.getD_cons_succ, List.getD_cons_zero]
            exact lt_of_lt_of_le hlt hm
          | succ i'' =>
            simp only [List.getD_cons_succ]
            exact hstrict i'' (by omega)

/-- `closestIdx` on a nonempty list is an in-range index of minimal squared
distance, and every strictly earlier index has strictly larger distance. -/
theorem closestIdx_spec (p : Rgb) (cs : List Rgb) (h : cs ≠ []) :
    closestIdx p cs < cs.length ∧
    (∀ i, i < cs.length →
      colorDistSq p (cs.getD (closestIdx p cs) rgbZero) ≤ colorDistSq p (cs.getD i rgbZero)) ∧
    (∀ i, i < closestIdx p cs →
      colorDistSq p (cs.getD (closestIdx p cs) rgbZero) < colorDistSq p (cs.getD i rgbZero)) := by
  rcases closestAux_spec p cs 0 0 ⊤ with ⟨_, hall⟩ | ⟨i, hi, heq, _, hmin, hstrict⟩
  · exfalso
    have h0 : 0 < cs.length := List.length_pos.mpr h
    have htop := hall 0 h0
    simp at htop
  · have hidx : closestIdx p cs = i := by
      unfold closestIdx
      rw [heq]
      simp
    rw [hidx]
    refine ⟨hi, ?_, ?_⟩
    · intro i' hi'
      exact_mod_cast hmin i' hi'
    · intro i' hi'
      exact_mod_cast hstrict i' hi'

/-- Reading a mapped range at an in-range index evaluates the function. -/
theorem getD_map_range {α : Type} (f : ℕ → α) (n j : ℕ) (hj : j < n) (d : α) :
    ((List.range n).map f).getD j d = f j := by
  have hl : j < ((List.range n).map f).length := by simpa using hj
  rw [List.getD_eq_getElem _ _ hl]
  simp

/-- Claim C2: every label stored by the classification stage is a palette
index whose color minimizes the Euclidean RGB distance to the pixel among all
palette entries (equivalently, the squared distance, since the square root is
strictly monotone), and every stored label lies in `[0, palette.length)`. -/
theorem colorIndices_nearest (data : List ℕ) (pixelCount : ℕ) (palette : List Rgb)
    (hp : palette ≠ []) (j : ℕ) (hj : j < pixelCount) :
    (colorIndices data pixelCount palette).getD j 0 < palette.length ∧
    ∀ c, c < palette.length →
      colorDistSq (getPixelColor data (4 * j))
          (palette.getD ((colorIndices data pixelCount palette).getD j 0) rgbZero) ≤
        colorDistSq (getPixelColor data (4 * j)) (palette.getD c rgbZero) := by
  unfold colorIndices
  rw [getD_map_range _ _ _ hj]
  obtain ⟨h1, h2, _⟩ := closestIdx_spec (getPixelColor data (4 * j)) palette hp
  exact ⟨h1, h2⟩

/-- Witness for claim C2 at pixel 9 of the concrete 4 × 4 image. -/
theorem colorIndices_nearest_witness :
    (colorIndices sampleImage 16 (extractPalette sampleImage 16 2)).getD 9 0 <
      (extractPalette sampleImage 16 2).length :=
  (colorIndices_nearest sampleImage 16 (extractPalette sampleImage 16 2)
    (by decide) 9 (by decide)).1

/-- Claim C10: classification is a deterministic function of pixel and
palette, and when several palette entries are at equal minimal distance the
lowest such index wins: the chosen index is in range, minimizes the squared
distance, and is less than or equal to every index attaining the same
distance. -/
theorem closestIdx_tie_lowest (p : Rgb) (cs : List Rgb) (h : cs ≠ []) :
    closestIdx p cs < cs.length ∧
    (∀ i, i < cs.length →
      colorDistSq p (cs.getD (closestIdx p cs) rgbZero) ≤ colorDistSq p (cs.getD i rgbZero)) ∧
    (∀ i, i < cs.length →
      colorDistSq p (cs.getD i rgbZero) = colorDistSq p (cs.getD (closestIdx p cs) rgbZero) →
      closestIdx p cs ≤ i) := by
  obtain ⟨h1, h2, h3⟩ := closestIdx_spec p cs h
  refine ⟨h1, h2, ?_⟩
  intro i hi hdeq
  by_contra hgt
  push_neg at hgt
  have hstrict := h3 i hgt
  rw [hdeq] at hstrict
  exact lt_irrefl _ hstrict

/-- Witness for claim C10: a two-entry palette with both entries equal to the
pixel; the tie resolves to an index at most the later tying index. -/
theorem closestIdx_tie_lowest_witness :
    closestIdx ⟨10, 0, 0⟩ [⟨10, 0, 0⟩, ⟨10, 0, 0⟩] ≤ 1 :=
  (closestIdx_tie_lowest ⟨10, 0, 0⟩ [⟨10, 0, 0⟩, ⟨10, 0, 0⟩] (by decide)).2.2 1
    (by decide) (by decide)

/-- Claim C5: a traced point list with at least 3 points contributes exactly
one move command, exactly one quadratic-curve command per corner point (the
corner is the control point and the midpoint to the next corner the endpoint,
starting from the midpoint between the last and first corner), and exactly
one close command; a point list with fewer than 3 points contributes
nothing. -/
theorem smoothPath_spec (ps : List (ℚ × ℚ)) :
    (2 < ps.length →
      (smoothPath ps).countP PathCmd.isMove = 1 ∧
      (smoothPath ps).countP PathCmd.isQuad = ps.length ∧
      (smoothPath ps).countP PathCmd.isClose = 1 ∧
      (smoothPath ps).headD PathCmd.close =
        PathCmd.move (midPt (ps.getD (ps.length - 1) pz) (ps.getD 0 pz)).1
          (midPt (ps.getD (ps.length - 1) pz) (ps.getD 0 pz)).2 ∧
      (∀ i, i < ps.length →
        (smoothPath ps).getD (i + 1) PathCmd.close =
          PathCmd.quad (ps.getD i pz).1 (ps.getD i pz).2
            (midPt (ps.getD i pz) (ps.getD ((i + 1) % ps.length) pz)).1
            (midPt (ps.getD i pz) (ps.getD ((i + 1) % ps.length) pz)).2) ∧
      (smoothPath ps).getLast? = some PathCmd.close) ∧
    (ps.length ≤ 2 → smoothPath ps = []) := by
  constructor
  · intro h
    simp only [smoothPath, if_pos h]
    refine ⟨?_, ?_, ?_, rfl, ?_, ?_⟩
    · simp [List.countP_cons, List.countP_append, List.countP_map, Function.comp_def,
        PathCmd.isMove, List.countP_eq_zero]
    · simp [List.countP_cons, List.countP_append, List.countP_map, Function.comp_def,
        PathCmd.isQuad, List.countP_true]
    · simp [List.countP_cons, List.countP_append, List.countP_map, Function.comp_def,
        PathCmd.isClose, List.countP_eq_zero]
    · intro i hi
      rw [List.getD_append _ _ _ _ (by simp; omega), List.getD_cons_succ,
        getD_map_range _ _ _ hi]
    · rw [List.getLast?_concat]
  · intro h
    simp only [smoothPath]
    rw [if_neg (by omega)]

/-- Witness for claim C5 on a concrete 3-point contour. -/
theorem smoothPath_spec_witness :
    (smoothPath [((0 : ℚ), (0 : ℚ)), (1, 0), (0, 1)]).countP PathCmd.isMove = 1 :=
  ((smoothPath_spec [((0 : ℚ), (0 : ℚ)), (1, 0), (0, 1)]).1 (by decide)).1

/-- The scanned cells are exactly the integer pairs `(x, y)` with
`x + 1 < width` and `y + 1 < height`. -/
theorem mem_cellList (W H : ℕ) (cl : ℤ × ℤ) :
    cl ∈ cellList W H ↔ ∃ x y : ℕ, x + 1 < W ∧ y + 1 < H ∧ cl = ((x : ℤ), (y : ℤ)) := by
  unfold cellList
  constructor
  · intro hcl
    rw [List.mem_flatMap] at hcl
    obtain ⟨y, hy, hx⟩ := hcl
    rw [List.mem_range] at hy
    rw [List.mem_map] at hx
    obtain ⟨x, hx, rfl⟩ := hx
    rw [List.mem_range] at hx
    exact ⟨x, y, by omega, by omega, rfl⟩
  · rintro ⟨x, y, hx, hy, rfl⟩
    rw [List.mem_flatMap]
    refine ⟨y, ?_, ?_⟩
    · rw [List.mem_range]
      omega
    · rw [List.mem_map]
      refine ⟨x, ?_, rfl⟩
      rw [List.mem_range]
      omega

/-- A cell scan over cells that all have marching-squares case 0 or 15 leaves
the accumulator untouched. -/
theorem foldl_traceCell_skip (W H : ℕ) (f : ℤ → ℤ → Bool) :
    ∀ (cells : List (ℤ × ℤ)) (acc : Finset (ℤ × ℤ) × List PathCmd),
      (∀ cl ∈ cells, squareIdx f cl.1 cl.2 = 0 ∨ squareIdx f cl.1 cl.2 = 15) →
      cells.foldl (traceCell W H f) acc = acc
  | [], _, _ => rfl
  | cl :: cells, acc, h => by
    have hcl := h cl (by simp)
    have hrest : ∀ cl' ∈ cells, squareIdx f cl'.1 cl'.2 = 0 ∨ squareIdx f cl'.1 cl'.2 = 15 :=
      fun cl' h' => h cl' (by simp [h'])
    rw [List.foldl_cons]
    have hcell : traceCell W H f acc cl = acc := by
      by_cases hv : cl ∈ acc.1
      · simp only [traceCell, if_pos hv]
      · simp only [traceCell, if_neg hv, if_pos hcl]
    rw [hcell]
    exact foldl_traceCell_skip W H f cells acc hrest

/-- In-bounds pixels of a label map whose in-range entries all equal `c` are
all the color `c`. -/
theorem isColor_all_true (W H c : ℕ) (labels : List ℕ)
    (h : ∀ j, j < W * H → labels.getD j 0 = c) :
    ∀ (a b : ℤ), 0 ≤ a → a < (W : ℤ) → 0 ≤ b → b < (H : ℤ) →
      isColor labels W H c a b = true := by
  intro a b ha0 haW hb0 hbH
  unfold isColor
  rw [if_neg (by omega)]
  have e1 : b * (W : ℤ) + a = ((b.toNat * W + a.toNat : ℕ) : ℤ) := by
    push_cast
    rw [Int.toNat_of_nonneg hb0, Int.toNat_of_nonneg ha0]
  have hnat : (b * (W : ℤ) + a).toNat < W * H := by
    rw [e1, Int.toNat_natCast]
    have hbn : b.toNat < H := by omega
    have han : a.toNat < W := by omega
    calc b.toNat * W + a.toNat < b.toNat * W + W := by omega
      _ = (b.toNat + 1) * W := by ring
      _ ≤ H * W := Nat.mul_le_mul_right W (by omega)
      _ = W * H := Nat.mul_comm H W
  simp only [beq_iff_eq]
  exact h _ hnat

/-- Claim C3: for a label map in which no pixel has label `c`, and likewise
for one in which every pixel has label `c` (a uniform image), `traceLayer`
for color `c` returns empty path data: every cell computes case 0
respectively case 15 and is skipped, so no contour is emitted. -/
theorem traceLayer_uniform (W H c : ℕ) (labels : List ℕ) :
    ((∀ j, j < W * H → labels.getD j 0 ≠ c) →
      traceLayer W H (isColor labels W H c) = []) ∧
    ((∀ j, j < W * H → labels.getD j 0 = c) →
      traceLayer W H (isColor labels W H c) = []) := by
  constructor
  · intro h
    have hf : ∀ (x y : ℤ), isColor labels W H c x y = false := by
      intro x y
      unfold isColor
      by_cases hb : x < 0 ∨ y < 0 ∨ (W : ℤ) ≤ x ∨ (H : ℤ) ≤ y
      · rw [if_pos hb]
      · rw [if_neg hb]
        push_neg at hb
        obtain ⟨hx0, hy0, hxW, hyH⟩ := hb
        have e1 : y * (W : ℤ) + x = ((y.toNat * W + x.toNat : ℕ) : ℤ) := by
          push_cast
          rw [Int.toNat_of_nonneg hy0, Int.toNat_of_nonneg hx0]
        have hnat : (y * (W : ℤ) + x).toNat < W * H := by
          rw [e1, Int.toNat_natCast]
          have hyn : y.toNat < H := by omega
          have hxn : x.toNat < W := by omega
          calc y.toNat * W + x.toNat < y.toNat * W + W := by omega
            _ = (y.toNat + 1) * W := by ring
            _ ≤ H * W := Nat.mul_le_mul_right W (by omega)
            _ = W * H := Nat.mul_comm H W
        simp only [beq_eq_false_iff_ne, ne_eq]
        exact h _ hnat
    have hidx : ∀ cl ∈ cellList W H, squareIdx (isColor labels W H c) cl.1 cl.2 = 0 ∨
        squareIdx (isColor labels W H c) cl.1 cl.2 = 15 := by
      intro cl _
      left
      unfold squareIdx
      rw [hf, hf, hf, hf]
      rfl
    unfold traceLayer
    rw [foldl_traceCell_skip W H _ _ _ hidx]
  · intro h
    have htrue := isColor_all_true W H c labels h
    have hidx : ∀ cl ∈ cellList W H, squareIdx (isColor labels W H c) cl.1 cl.2 = 0 ∨
        squareIdx (isColor labels W H c) cl.1 cl.2 = 15 := by
      intro cl hcl
      right
      obtain ⟨x, y, hx, hy, rfl⟩ := (mem_cellList W H cl).mp hcl
      unfold squareIdx
      rw [htrue _ _ (by omega) (by omega) (by omega) (by omega),
        htrue _ _ (by omega) (by omega) (by omega) (by omega),
        htrue _ _ (by omega) (by omega) (by omega) (by omega),
        htrue _ _ (by omega) (by omega) (by omega) (by omega)]
      rfl
    unfold traceLayer
    rw [foldl_traceCell_skip W H _ _ _ hidx]

/-- Witness for claim C3 on a uniform 2 × 2 label map. -/
theorem traceLayer_uniform_witness :
    traceLayer 2 2 (isColor [1, 1, 1, 1] 2 2 1) = [] :=
  (traceLayer_uniform 2 2 1 [1, 1, 1, 1]).2 (by decide)

/-- The walk executes at most as many loop iterations as its step budget. -/
theorem walk_iters_le (f : ℤ → ℤ → Bool) (W H : ℕ) (sx sy : ℤ) (e0 : ℕ) :
    ∀ (fuel : ℕ) (vis : Finset (ℤ × ℤ)) (pts : List (ℚ × ℚ)) (cx cy : ℤ) (ne : ℕ),
      (walk f W H sx sy e0 fuel vis pts cx cy ne).2.2 ≤ fuel
  | 0, _, _, _, _, _ => le_refl 0
  | fuel + 1, vis, pts, cx, cy, ne => by
    simp only [walk]
    rcases hstep : walkStep f W H sx sy e0 vis pts cx cy ne with ⟨v, p⟩ | ⟨v, p, nx, ny, ne'⟩ <;>
      simp only [hstep]
    · omega
    · have h := walk_iters_le f W H sx sy e0 fuel v p nx ny ne'
      omega

/-- A walk step whose move leaves the cell grid stops with the gathered
points. -/
theorem walkStep_stop_oob (f : ℤ → ℤ → Bool) (W H : ℕ) (sx sy : ℤ) (e0 : ℕ)
    (vis : Finset (ℤ × ℤ)) (pts : List (ℚ × ℚ)) (cx cy : ℤ) (ne : ℕ)
    (h : (nextCell cx cy ne).1 < 0 ∨ (W : ℤ) - 1 ≤ (nextCell cx cy ne).1 ∨
      (nextCell cx cy ne).2 < 0 ∨ (H : ℤ) - 1 ≤ (nextCell cx cy ne).2) :
    walkStep f W H sx sy e0 vis pts cx cy ne =
      .inl (insert (cx, cy) vis, pts ++ [getEdgePos cx cy ne]) := by
  simp only [walkStep]
  rw [if_pos h]

/-- A walk step that arrives at a case-0 or case-15 cell stops with the
gathered points. -/
theorem walkStep_stop_empty_full (f : ℤ → ℤ → Bool) (W H : ℕ) (sx sy : ℤ) (e0 : ℕ)
    (vis : Finset (ℤ × ℤ)) (pts : List (ℚ × ℚ)) (cx cy : ℤ) (ne : ℕ)
    (hin : ¬((nextCell cx cy ne).1 < 0 ∨ (W : ℤ) - 1 ≤ (nextCell cx cy ne).1 ∨
      (nextCell cx cy ne).2 < 0 ∨ (H : ℤ) - 1 ≤ (nextCell cx cy ne).2))
    (hidx : squareIdx f (nextCell cx cy ne).1 (nextCell cx cy ne).2 = 0 ∨
      squareIdx f (nextCell cx cy ne).1 (nextCell cx cy ne).2 = 15) :
    walkStep f W H sx sy e0 vis pts cx cy ne =
      .inl (insert (cx, cy) vis, pts ++ [getEdgePos cx cy ne]) := by
  simp only [walkStep]
  rw [if_neg hin, if_pos hidx]

/-- A walk step that returns to the starting cell through the starting entry
edge stops with the gathered points. -/
theorem walkStep_stop_closed (f : ℤ → ℤ → Bool) (W H : ℕ) (sx sy : ℤ) (e0 : ℕ)
    (vis : Finset (ℤ × ℤ)) (pts : List (ℚ × ℚ)) (cx cy : ℤ) (ne : ℕ) (seg : ℕ × ℕ)
    (hin : ¬((nextCell cx cy ne).1 < 0 ∨ (W : ℤ) - 1 ≤ (nextCell cx cy ne).1 ∨
      (nextCell cx cy ne).2 < 0 ∨ (H : ℤ) - 1 ≤ (nextCell cx cy ne).2))
    (hidx : ¬(squareIdx f (nextCell cx cy ne).1 (nextCell cx cy ne).2 = 0 ∨
      squareIdx f (nextCell cx cy ne).1 (nextCell cx cy ne).2 = 15))
    (hfind : (LINE_LOOKUP.getD (squareIdx f (nextCell cx cy ne).1 (nextCell cx cy ne).2)
        []).find? (fun s => s.1 == (ne + 2) % 4) = some seg)
    (hclose : (nextCell cx cy ne).1 = sx ∧ (nextCell cx cy ne).2 = sy ∧ seg.1 = e0) :
    walkStep f W H sx sy e0 vis pts cx cy ne =
      .inl (insert (cx, cy) vis, pts ++ [getEdgePos cx cy ne]) := by
  simp only [walkStep]
  rw [if_neg hin, if_neg hidx, hfind]
  simp only []
  rw [if_pos hclose]

/-- Claim C4: the boundary walk always terminates.  With the source's budget
`maxSteps = width * height` it executes at most `width * height` loop
iterations, a stopped step ends the walk in that iteration, and the walk
stops early when the move leaves the cell grid, when it reaches a case-0 or
case-15 cell, or when it returns to the starting cell and entry edge (the
no-matching-segment stop is the subject of `walk_no_segment_finalizes`). -/
theorem walk_budget_stops (f : ℤ → ℤ → Bool) (W H : ℕ) (sx sy : ℤ) (e0 fuel : ℕ)
    (vis : Finset (ℤ × ℤ)) (pts : List (ℚ × ℚ)) (cx cy : ℤ) (ne : ℕ) :
    (walk f W H sx sy e0 fuel vis pts cx cy ne).2.2 ≤ fuel ∧
    (walk f W H sx sy e0 (W * H) vis pts cx cy ne).2.2 ≤ W * H ∧
    (∀ v p, walkStep f W H sx sy e0 vis pts cx cy ne = .inl (v, p) →
      walk f W H sx sy e0 (fuel + 1) vis pts cx cy ne = (v, p, 1)) ∧
    ((nextCell cx cy ne).1 < 0 ∨ (W : ℤ) - 1 ≤ (nextCell cx cy ne).1 ∨
      (nextCell cx cy ne).2 < 0 ∨ (H : ℤ) - 1 ≤ (nextCell cx cy ne).2 →
      walkStep f W H sx sy e0 vis pts cx cy ne =
        .inl (insert (cx, cy) vis, pts ++ [getEdgePos cx cy ne])) ∧
    (¬((nextCell cx cy ne).1 < 0 ∨ (W : ℤ) - 1 ≤ (nextCell cx cy ne).1 ∨
      (nextCell cx cy ne).2 < 0 ∨ (H : ℤ) - 1 ≤ (nextCell cx cy ne).2) →
      (squareIdx f (nextCell cx cy ne).1 (nextCell cx cy ne).2 = 0 ∨
        squareIdx f (nextCell cx cy ne).1 (nextCell cx cy ne).2 = 15) →
      walkStep f W H sx sy e0 vis pts cx cy ne =
        .inl (insert (cx, cy) vis, pts ++ [getEdgePos cx cy ne])) ∧
    (∀ seg : ℕ × ℕ,
      ¬((nextCell cx cy ne).1 < 0 ∨ (W : ℤ) - 1 ≤ (nextCell cx cy ne).1 ∨
        (nextCell cx cy ne).2 < 0 ∨ (H : ℤ) - 1 ≤ (nextCell cx cy ne).2) →
      ¬(squareIdx f (nextCell cx cy ne).1 (nextCell cx cy ne).2 = 0 ∨
        squareIdx f (nextCell cx cy ne).1 (nextCell cx cy ne).2 = 15) →
      (LINE_LOOKUP.getD (squareIdx f (nextCell cx cy ne).1 (nextCell cx cy ne).2)
        []).find? (fun s => s.1 == (ne + 2) % 4) = some seg →
      (nextCell cx cy ne).1 = sx ∧ (nextCell cx cy ne).2 = sy ∧ seg.1 = e0 →
      walkStep f W H sx sy e0 vis pts cx cy ne =
        .inl (insert (cx, cy) vis, pts ++ [getEdgePos cx cy ne])) := by
  refine ⟨walk_iters_le f W H sx sy e0 fuel vis pts cx cy ne,
    walk_iters_le f W H sx sy e0 (W * H) vis pts cx cy ne, ?_, ?_, ?_, ?_⟩
  · intro v p hstep
    simp only [walk, hstep]
  · intro h
    exact walkStep_stop_oob f W H sx sy e0 vis pts cx cy ne h
  · intro hin hidx
    exact walkStep_stop_empty_full f W H sx sy e0 vis pts cx cy ne hin hidx
  · intro seg hin hidx hfind hclose
    exact walkStep_stop_closed f W H sx sy e0 vis pts cx cy ne seg hin hidx hfind hclose

/-- Witness for claim C4: on a 1 × 1 grid every exit leaves the cell range,
so the very first step stops the walk. -/
theorem walk_budget_stops_witness :
    walkStep (fun _ _ => false) 1 1 0 0 0 ∅ [] 0 0 0 =
      .inl (insert ((0 : ℤ), (0 : ℤ)) ∅, [] ++ [getEdgePos 0 0 0]) :=
  (walk_budget_stops (fun _ _ => false) 1 1 0 0 0 5 ∅ [] 0 0 0).2.2.2.1 (by decide)

/-- Claim C7: when the walk arrives at an in-range boundary cell whose lookup
entry has no segment whose entry edge matches the arrival edge, the walk
stops at that iteration and returns the points gathered so far; the contour
is then emitted as a closed path exactly when more than 2 points were
gathered, and dropped otherwise.  The cell scan of `traceLayer` is a fold
over the remaining cells, so scanning and the other colors continue
unaffected. -/
theorem walk_no_segment_finalizes (f : ℤ → ℤ → Bool) (W H : ℕ) (sx sy : ℤ) (e0 fuel : ℕ)
    (vis : Finset (ℤ × ℤ)) (pts : List (ℚ × ℚ)) (cx cy : ℤ) (ne : ℕ)
    (hin : ¬((nextCell cx cy ne).1 < 0 ∨ (W : ℤ) - 1 ≤ (nextCell cx cy ne).1 ∨
      (nextCell cx cy ne).2 < 0 ∨ (H : ℤ) - 1 ≤ (nextCell cx cy ne).2))
    (hidx : ¬(squareIdx f (nextCell cx cy ne).1 (nextCell cx cy ne).2 = 0 ∨
      squareIdx f (nextCell cx cy ne).1 (nextCell cx cy ne).2 = 15))
    (hmiss : (LINE_LOOKUP.getD (squareIdx f (nextCell cx cy ne).1 (nextCell cx cy ne).2)
        []).find? (fun s => s.1 == (ne + 2) % 4) = none) :
    walk f W H sx sy e0 (fuel + 1) vis pts cx cy ne =
      (insert (cx, cy) vis, pts ++ [getEdgePos cx cy ne], 1) ∧
    (2 < (pts ++ [getEdgePos cx cy ne]).length →
      (smoothPath (pts ++ [getEdgePos cx cy ne])).getLast? = some PathCmd.close) ∧
    ((pts ++ [getEdgePos cx cy ne]).length ≤ 2 →
      smoothPath (pts ++ [getEdgePos cx cy ne]) = []) := by
  have hstep : walkStep f W H sx sy e0 vis pts cx cy ne =
      .inl (insert (cx, cy) vis, pts ++ [getEdgePos cx cy ne]) := by
    simp only [walkStep]
    rw [if_neg hin, if_neg hidx, hmiss]
  refine ⟨?_, ?_, ?_⟩
  · simp only [walk, hstep]
  · intro h
    simp only [smoothPath, if_pos h]
    rw [List.getLast?_concat]
  · intro h
    simp only [smoothPath]
    rw [if_neg (by omega)]

/-- Witness for claim C7: a cell of case 1 reached through its top edge has
no segment entering from the top, so the walk finalizes with its two points
(too few for an emitted contour). -/
theorem walk_no_segment_finalizes_witness :
    walk (fun x y => decide (x = 0 ∧ y = 2)) 3 3 0 0 0 8 ∅ [] 0 0 2 =
      (insert ((0 : ℤ), (0 : ℤ)) ∅, [] ++ [getEdgePos 0 0 2], 1) :=
  (walk_no_segment_finalizes (fun x y => decide (x = 0 ∧ y = 2)) 3 3 0 0 0 7 ∅ [] 0 0 2
    (by decide) (by decide) (by decide)).1

/-- Mapping first components over a `filterMap` whose results keep their input
as first component yields the inputs that pass the filter. -/
theorem map_fst_filterMap {β : Type _} (l : List ℕ) (f : ℕ → Option (ℕ × β))
    (hf : ∀ c x, f c = some x → x.1 = c) :
    (l.filterMap f).map Prod.fst = l.filter (fun c => (f c).isSome) := by
  induction l with
  | nil => rfl
  | cons c l ih =>
    cases hfc : f c with
    | none => simp [List.filterMap_cons, List.filter_cons, hfc, ih]
    | some x =>
      have hx := hf c x hfc
      simp [List.filterMap_cons, List.filter_cons, hfc, ih, hx]

/-- Claim C6: the emitted vector document declares the SVG namespace and a
`viewBox` equal to `0 0 width height`, carries exactly one background
rectangle filled with the color of palette index 0, and lists the per-color
filled path elements in strictly ascending palette-index order; a palette
color whose combined traced path data is empty is omitted entirely, and every
emitted path element carries its palette color's fill and its traced path
data. -/
theorem vectorize_doc_structure (data : List ℕ) (W H k : ℕ) :
    (vectorize data W H k).xmlns = "http://www.w3.org/2000/svg" ∧
    (vectorize data W H k).viewBox = "0 0 " ++ toString W ++ " " ++ toString H ∧
    (vectorize data W H k).bgFill =
      rgbToHex ((extractPalette data (W * H) k).getD 0 rgbZero) ∧
    ((vectorize data W H k).paths.map Prod.fst).Pairwise (· < ·) ∧
    (∀ c : ℕ, c ∈ (vectorize data W H k).paths.map Prod.fst ↔
      c < (extractPalette data (W * H) k).length ∧
        traceLayer W H (isColor (colorIndices data (W * H) (extractPalette data (W * H) k))
          W H c) ≠ []) ∧
    (∀ e ∈ (vectorize data W H k).paths,
      e.2.1 = rgbToHex ((extractPalette data (W * H) k).getD e.1 rgbZero) ∧
      e.2.2 = traceLayer W H
        (isColor (colorIndices data (W * H) (extractPalette data (W * H) k)) W H e.1)) := by
  have epaths : (vectorize data W H k).paths =
      (List.range (extractPalette data (W * H) k).length).filterMap
        (fun c =>
          if traceLayer W H (isColor (colorIndices data (W * H)
              (extractPalette data (W * H) k)) W H c) = [] then none
          else some (c, rgbToHex ((extractPalette data (W * H) k).getD c rgbZero),
            traceLayer W H (isColor (colorIndices data (W * H)
              (extractPalette data (W * H) k)) W H c))) := rfl
  have hf : ∀ (c : ℕ) (x : ℕ × String × List PathCmd),
      (if traceLayer W H (isColor (colorIndices data (W * H)
          (extractPalette data (W * H) k)) W H c) = [] then none
        else some (c, rgbToHex ((extractPalette data (W * H) k).getD c rgbZero),
          traceLayer W H (isColor (colorIndices data (W * H)
            (extractPalette data (W * H) k)) W H c))) = some x → x.1 = c := by
    intro c x h
    by_cases hd : traceLayer W H (isColor (colorIndices data (W * H)
        (extractPalette data (W * H) k)) W H c) = []
    · rw [if_pos hd] at h
      cases h
    · rw [if_neg hd] at h
      cases h
      rfl
  refine ⟨rfl, rfl, rfl, ?_, ?_, ?_⟩
  · rw [epaths, map_fst_filterMap _ _ hf]
    exact List.Pairwise.sublist (List.filter_sublist _) (List.pairwise_lt_range _)
  · intro c
    rw [epaths, map_fst_filterMap _ _ hf, List.mem_filter, List.mem_range]
    constructor
    · rintro ⟨hlt, hsome⟩
      refine ⟨hlt, ?_⟩
      intro hd
      rw [if_pos hd] at hsome
      simp at hsome
    · rintro ⟨hlt, hne⟩
      refine ⟨hlt, ?_⟩
      rw [if_neg hne]
      rfl
  · intro e he
    rw [epaths, List.mem_filterMap] at he
    obtain ⟨c, _, hfc⟩ := he
    by_cases hd : traceLayer W H (isColor (colorIndices data (W * H)
        (extractPalette data (W * H) k)) W H c) = []
    · rw [if_pos hd] at hfc
      cases hfc
    · rw [if_neg hd] at hfc
      cases hfc
      exact ⟨rfl, rfl⟩

/-- Witness for claim C6: on the concrete 4 × 4 two-band image the color-1
path element is emitted, and it carries the white fill and the traced data of
palette index 1. -/
theorem vectorize_doc_structure_witness :
    ((vectorize sampleImage 4 4 2).paths.getD 1 (0, "", [])).2.1 =
      rgbToHex ((extractPalette sampleImage (4 * 4) 2).getD
        ((vectorize sampleImage 4 4 2).paths.getD 1 (0, "", [])).1 rgbZero) := by
  have hlen : 1 < (vectorize sampleImage 4 4 2).paths.length := by decide
  have hmem : (vectorize sampleImage 4 4 2).paths.getD 1 (0, "", []) ∈
      (vectorize sampleImage 4 4 2).paths := by
    rw [List.getD_eq_getElem _ _ hlen]
    exact List.getElem_mem hlen
  exact ((vectorize_doc_structure sampleImage 4 4 2).2.2.2.2.2 _ hmem).1

/-- Counterexample to claim C9 as stated: on an annotation-service failure
with a present API key, `analyzeImage` returns the fixed placeholder
description `"Analysis failed"`, which is not the empty string claimed. -/
theorem analyzeImage_failure_description_nonempty :
    (analyzeImage (some "key") ServiceResponse.failure (fun _ => none)).description ≠ "" := by
  decide

/-- Claim C9 (amended): `analyzeImage` is total — modelled as a plain
function, mirroring the source's all-enclosing `try/catch` — and on every
failure of the external annotation step (missing or empty API key, service
error, missing or empty response text, or unparseable response) it returns a
successful result whose tags are empty and whose description is one of the
two fixed placeholder strings, so annotation failure does not propagate as an
overall item-processing failure. -/
theorem analyzeImage_total_on_failure (key : Option String) (resp : ServiceResponse)
    (parse : String → Option AiAnalysis) (h : serviceCallFails key resp parse) :
    (analyzeImage key resp parse).tags = [] ∧
      ((analyzeImage key resp parse).description = "AI Analysis unavailable (Missing Key)" ∨
        (analyzeImage key resp parse).description = "Analysis failed") := by
  unfold serviceCallFails at h
  unfold analyzeImage
  by_cases hk : key = none ∨ key = some ""
  · rw [if_pos hk]
    exact ⟨rfl, Or.inl rfl⟩
  · rw [if_neg hk]
    rcases h with h | h | h | h | h | ⟨t, ht, hp⟩
    · exact absurd (Or.inl h) hk
    · exact absurd (Or.inr h) hk
    · subst h
      exact ⟨rfl, Or.inr rfl⟩
    · subst h
      exact ⟨rfl, Or.inr rfl⟩
    · subst h
      simp
    · subst ht
      by_cases ht0 : t = ""
      · subst ht0
        simp
      · simp only [ht0, if_neg, hp]
        exact ⟨rfl, Or.inr rfl⟩

/-- Witness for claim C9 (amended) at a concrete failing configuration. -/
theorem analyzeImage_total_on_failure_witness :
    (analyzeImage none ServiceResponse.failure (fun _ => none)).tags = [] ∧
      ((analyzeImage none ServiceResponse.failure (fun _ => none)).description =
          "AI Analysis unavailable (Missing Key)" ∨
        (analyzeImage none ServiceResponse.failure (fun _ => none)).description =
          "Analysis failed") :=
  analyzeImage_total_on_failure none ServiceResponse.failure (fun _ => none) (Or.inl rfl)
